import Mathlib

/-!
Verification of the core of the `entrails` CloudTrail-analysis tool.

The program (source file with `normalizeArn`, `run`, `process`) downloads
gzip-compressed CloudTrail log objects from S3, parses their `Records`
arrays, and aggregates, for one target principal, a map from
`service:eventName` operation keys to the lexically greatest (latest)
`eventTime`, plus a set of Secrets Manager secret identifiers.

Strings of the Go program are modelled as `List Char` (the relevant data is
ASCII, where byte order and codepoint order agree).  Go `strings.Replace`
with count 1 is `replaceOnce`; `strings.Index` plus slicing up to the first
`/` is `truncFirstSlash`; Go string `>` comparison is `goLess` (flipped).
The two shared maps guarded by the mutex are modelled as functions
(`AggState`); each record mutates them via `processRecord`, which is a
direct transcription of the body of the record loop in `process`.
-/

/-- Go strings, modelled as lists of characters. -/
abbrev Str := List Char

/-- The literal `arn:aws:sts::` replaced by `normalizeArn`. -/
def stsPat : Str := "arn:aws:sts::".data

/-- The literal `arn:aws:iam::` substituted by `normalizeArn`. -/
def iamPat : Str := "arn:aws:iam::".data

/-- The literal `:assumed-role/` replaced by `normalizeArn`. -/
def arSeg : Str := ":assumed-role/".data

/-- The literal `:role/` substituted by `normalizeArn`. -/
def roleSeg : Str := ":role/".data

/-- `:assumed-role` — the part of `arSeg` before its final slash. -/
def arHead : Str := ":assumed-role".data

/-- `:role` — the part of `roleSeg` before its final slash. -/
def roleHead : Str := ":role".data

/-- Go `strings.Replace(s, pat, rep, 1)`: replace the first occurrence of
`pat` in `s` by `rep`, scanning left to right. -/
def replaceOnce : Str → Str → Str → Str
  | [], pat, rep => if pat.isPrefixOf ([] : Str) then rep else []
  | c :: cs, pat, rep =>
    if pat.isPrefixOf (c :: cs) then rep ++ (c :: cs).drop pat.length
    else c :: replaceOnce cs pat rep

/-- Go `if idx := strings.Index(arn, "/"); idx != -1 { arn = arn[:idx] }`:
truncate at the first `/`, keep the string unchanged when it has none. -/
def truncFirstSlash (s : Str) : Str :=
  match s.findIdx? (fun c => c = '/') with
  | some i => s.take i
  | none => s

/-- The `normalizeArn` function of the source: rewrite the sts service
namespace to iam, rewrite the first `:assumed-role/` to `:role/`, then
truncate at the first `/`. -/
def normalizeArn (raw : Str) : Str :=
  truncFirstSlash (replaceOnce (replaceOnce raw stsPat iamPat) arSeg roleSeg)

/-- Go `a < b` on strings: strict byte-lexicographic comparison.  The source
writes `ev.EventTime > prev`, i.e. `goLess prev ev.eventTime`. -/
def goLess : Str → Str → Bool
  | _, [] => false
  | [], _ :: _ => true
  | a :: as, b :: bs => if a < b then true else if b < a then false else goLess as bs

/-- A dynamically typed JSON value stored in `requestParameters`; the source
only ever asks whether a value is a string (Go type assertion `.(string)`). -/
inductive GoVal
  | str (s : Str)
  | other
deriving DecidableEq

/-- One decoded CloudTrail record, with exactly the fields the source
unmarshals: eventTime, eventSource, eventName, errorCode (nullable),
userIdentity.arn and requestParameters. -/
structure LogRecord where
  eventTime : Str
  eventSource : Str
  eventName : Str
  errorCode : Option Str
  userIdentityArn : Str
  requestParameters : List (Str × GoVal)
deriving DecidableEq

/-- Lookup of a key in the decoded `requestParameters` object (Go map
indexing; JSON objects decode with unique keys). -/
def lookupParam : List (Str × GoVal) → Str → Option GoVal
  | [], _ => none
  | (k, v) :: ps, key => if key = k then some v else lookupParam ps key

/-- Go `strings.Split(s, ".")[0]`: the segment before the first dot. -/
def firstDotSeg (s : Str) : Str := s.takeWhile (fun c => c ≠ '.')

/-- The aggregation key `strings.Split(ev.EventSource, ".")[0] + ":" + ev.EventName`. -/
def opKey (r : LogRecord) : Str := firstDotSeg r.eventSource ++ ':' :: r.eventName

/-- The two shared aggregation structures guarded by the mutex: the
`actions` map (OperationKey to latest timestamp) and the `secrets` set. -/
structure AggState where
  actions : Str → Option Str
  secrets : Str → Bool

/-- The initial state: both maps start empty. -/
def emptyState : AggState := ⟨fun _ => none, fun _ => false⟩

/-- The conditional map write
`if prev, ok := actions[action]; !ok || ev.EventTime > prev { actions[action] = ev.EventTime }`
reduced to its effect on one stored value. -/
def updVal (v : Option Str) (t : Str) : Option Str :=
  match v with
  | none => some t
  | some prev => if goLess prev t then some t else some prev

/-- The ledger upsert performed under the lock, as a map update. -/
def ledgerUpd (m : Str → Option Str) (k t : Str) : Str → Option Str :=
  fun q => if q = k then updVal (m k) t else m q

/-- Insertion into the secrets set (`secrets[sid] = struct{}{}`). -/
def insertSecret (s : Str → Bool) (x : Str) : Str → Bool :=
  fun q => if q = x then true else s q

/-- Go `strings.Contains(s, pat)`: does `pat` occur in `s` as a contiguous
substring (scanning every position). -/
def containsSeq (pat : Str) : Str → Bool
  | [] => pat.isPrefixOf ([] : Str)
  | c :: cs => pat.isPrefixOf (c :: cs) || containsSeq pat cs

/-- The literal `secretsmanager` tested with `strings.Contains`. -/
def smPat : Str := "secretsmanager".data

/-- The literal `GetSecretValue`. -/
def gsvPat : Str := "GetSecretValue".data

/-- The literal `secretId` looked up in `requestParameters`. -/
def sidKey : Str := "secretId".data

/-- The body of the record loop in `process`: skip the record unless its
normalized principal equals the target identity and its errorCode is null;
otherwise upsert the actions ledger, and afterwards, still inside the same
guarded branch, add `requestParameters["secretId"]` to the secrets set when
the eventSource contains `secretsmanager`, the eventName is
`GetSecretValue`, and the parameter is a string. -/
def processRecord (identity : Str) (st : AggState) (r : LogRecord) : AggState :=
  if normalizeArn r.userIdentityArn ≠ identity ∨ r.errorCode ≠ none then st
  else
    let st1 : AggState := ⟨ledgerUpd st.actions (opKey r) r.eventTime, st.secrets⟩
    if containsSeq smPat r.eventSource = true ∧ r.eventName = gsvPat then
      match lookupParam r.requestParameters sidKey with
      | some (GoVal.str sid) => ⟨st1.actions, insertSecret st1.secrets sid⟩
      | _ => st1
    else st1

/-- One S3 log object as seen by `process`.  `payload = none` models a
failure of the fetch, the gzip reader, or the top-level JSON decode (the
three early `return`s); `payload = some recs` is the decoded `Records`
array, where an entry `none` is a record whose individual unmarshal failed
(the `continue`). -/
structure LogObject where
  key : Str
  payload : Option (List (Option LogRecord))
deriving DecidableEq

/-- The records of an object that survive per-record unmarshalling. -/
def objRecords (o : LogObject) : List LogRecord :=
  match o.payload with
  | none => []
  | some rs => rs.filterMap id

/-- Folding a list of records into the shared state. -/
def foldRecords (identity : Str) (st : AggState) (rs : List LogRecord) : AggState :=
  rs.foldl (processRecord identity) st

/-- The effect of `process` on the shared state for one object. -/
def processObject (identity : Str) (st : AggState) (o : LogObject) : AggState :=
  foldRecords identity st (objRecords o)

/-- The worker loop of `run`: every object is processed and then counted
(`processed` is incremented after `process` returns, whatever happened). -/
def runObjects (identity : Str) (objs : List LogObject) : AggState × Nat :=
  objs.foldl (fun p o => (processObject identity p.1 o, p.2 + 1)) (emptyState, 0)

/-- One shard prefix during the parallel listing in `run`: the successive
pages its paginator would deliver, and `failAfter = some n` when the
`NextPage` call after the first `n` pages returns an error (upon which the
goroutine of that shard returns, abandoning its remaining pages). -/
structure Shard where
  pages : List (List Str)
  failAfter : Option Nat
deriving DecidableEq

/-- The keys a shard contributes to `allKeys`: all its pages when no error
occurs, the already collected pages otherwise. -/
def shardKeys (sh : Shard) : List Str :=
  match sh.failAfter with
  | none => sh.pages.flatten
  | some n => (sh.pages.take n).flatten

/-- The final `allKeys` collection after all listing goroutines join. -/
def listAllKeys (shards : List Shard) : List Str :=
  (shards.map shardKeys).flatten

/-- The secrets-set effect of one record that passed the identity and error
filter: the lower half of the loop body in `process`. -/
def secUpd (r : LogRecord) (s : Str → Bool) : Str → Bool :=
  if containsSeq smPat r.eventSource = true ∧ r.eventName = gsvPat then
    match lookupParam r.requestParameters sidKey with
    | some (GoVal.str sid) => insertSecret s sid
    | _ => s
  else s

/-- The secret identifier a record would insert, when it passes the filter:
`some sid` exactly when the eventSource contains `secretsmanager`, the
eventName is `GetSecretValue` and `requestParameters["secretId"]` is a
string. -/
def secretOf (r : LogRecord) : Option Str :=
  if containsSeq smPat r.eventSource = true ∧ r.eventName = gsvPat then
    match lookupParam r.requestParameters sidKey with
    | some (GoVal.str sid) => some sid
    | _ => none
  else none

/-- What `normalizeArn` computes from the part of its input before the first
slash: the sts namespace rewrite confined to that head, then the
assumed-role rewrite in the only position where `:assumed-role/` can touch
the first slash, namely when the head ends in `:assumed-role`. -/
def normHead (L : Str) : Str :=
  let L1 := replaceOnce L stsPat iamPat
  if arHead <:+ L1 then L1.take (L1.length - arHead.length) ++ roleHead else L1

/-- A canonical target identity owned by account 999988887777, distinct from
every principal of account 111122223333. -/
def c1Target : Str := "arn:aws:iam::999988887777:role".data

/-- A successful GetSecretValue record, with `secretId` present as a string,
issued by a principal that is not `c1Target`. -/
def c1Record : LogRecord :=
  ⟨"2024-01-15T10:00:00Z".data, "secretsmanager.amazonaws.com".data,
   "GetSecretValue".data, none, "arn:aws:iam::111122223333:user/alice".data,
   [(sidKey, GoVal.str "prod/db".data)]⟩

/-- The canonical form `normalizeArn` produces for user principals of
account 111122223333 (the name is truncated away by the code). -/
def c3Target : Str := "arn:aws:iam::111122223333:user".data

/-- A successful `ec2:DescribeInstances` record at 10:00 by the target. -/
def c3Rec1 : LogRecord :=
  ⟨"2024-01-15T10:00:00Z".data, "ec2.amazonaws.com".data,
   "DescribeInstances".data, none,
   "arn:aws:iam::111122223333:user/alice/session1".data, []⟩

/-- A successful `ec2:DescribeInstances` record at 10:30 by the target. -/
def c3Rec2 : LogRecord :=
  ⟨"2024-01-15T10:30:00Z".data, "ec2.amazonaws.com".data,
   "DescribeInstances".data, none,
   "arn:aws:iam::111122223333:user/alice/session2".data, []⟩

/-- An object holding the 10:00 DescribeInstances record. -/
def c4Obj1 : LogObject := ⟨"AWSLogs/111122223333/a.json.gz".data, some [some c3Rec1]⟩

/-- An object holding the 10:30 DescribeInstances record. -/
def c4Obj2 : LogObject := ⟨"AWSLogs/111122223333/b.json.gz".data, some [some c3Rec2]⟩

/-- A failed record (errorCode set) whose identity matches `c3Target`. -/
def c7Rec : LogRecord :=
  ⟨"2024-01-15T11:00:00Z".data, "ec2.amazonaws.com".data,
   "RunInstances".data, some "Client.UnauthorizedOperation".data,
   "arn:aws:iam::111122223333:user/alice".data, []⟩

/-- A record whose `userIdentity.arn` is absent (Go zero value: empty). -/
def c10Rec : LogRecord :=
  ⟨"2024-01-15T12:00:00Z".data, "s3.amazonaws.com".data,
   "GetObject".data, none, [], []⟩

/-- An object whose fetch, decompression or top-level parse failed. -/
def c9FailObj : LogObject := ⟨"AWSLogs/111122223333/corrupt.json.gz".data, none⟩

/-- An object that decodes fine (zero records). -/
def c9GoodObj : LogObject := ⟨"AWSLogs/111122223333/ok.json.gz".data, some []⟩

/-- A shard whose listing errors after one collected page. -/
def c8Shard1 : Shard := ⟨[["key1".data], ["key2".data]], some 1⟩

/-- A shard listed to completion. -/
def c8Shard2 : Shard := ⟨[["key3".data]], none⟩

/-! ## Basic facts about the Go string comparison `goLess` -/

theorem goLess_nil_right (a : Str) : goLess a [] = false := by
  cases a <;> rfl

theorem goLess_asymm : ∀ a b : Str, goLess a b = true → goLess b a = false
  | _, [], h => by rw [goLess_nil_right] at h; cases h
  | [], _ :: _, _ => rfl
  | x :: xs, y :: ys, h => by
    by_cases hxy : x < y
    · have hyx : ¬ y < x := lt_asymm hxy
      simp [goLess, hxy, hyx]
    · by_cases hyx : y < x
      · simp [goLess, hxy, hyx] at h
      · simp only [goLess, if_neg hxy, if_neg hyx] at h
        simp only [goLess, if_neg hxy, if_neg hyx]
        exact goLess_asymm xs ys h

theorem goLess_conn : ∀ a b : Str, goLess a b = false → goLess b a = false → a = b
  | [], [], _, _ => rfl
  | [], _ :: _, h, _ => by cases h
  | _ :: _, [], _, h => by cases h
  | x :: xs, y :: ys, h, h' => by
    by_cases hxy : x < y
    · simp [goLess, hxy] at h
    · by_cases hyx : y < x
      · simp [goLess, hyx] at h'
      · simp only [goLess, if_neg hxy, if_neg hyx] at h h'
        have hx : x = y := le_antisymm (not_lt.mp hyx) (not_lt.mp hxy)
        rw [hx, goLess_conn xs ys h h']

/-! ## Unfolding lemmas for the record-processing step -/

theorem processRecord_skip (i : Str) (st : AggState) (r : LogRecord)
    (h : normalizeArn r.userIdentityArn ≠ i ∨ r.errorCode ≠ none) :
    processRecord i st r = st := by
  unfold processRecord
  rw [if_pos h]

theorem processRecord_actions (i : Str) (st : AggState) (r : LogRecord) :
    (processRecord i st r).actions =
      if normalizeArn r.userIdentityArn = i ∧ r.errorCode = none then
        ledgerUpd st.actions (opKey r) r.eventTime
      else st.actions := by
  unfold processRecord
  by_cases h : normalizeArn r.userIdentityArn ≠ i ∨ r.errorCode ≠ none
  · have hc : ¬ (normalizeArn r.userIdentityArn = i ∧ r.errorCode = none) := by tauto
    rw [if_pos h, if_neg hc]
  · have hc : normalizeArn r.userIdentityArn = i ∧ r.errorCode = none := by tauto
    rw [if_neg h, if_pos hc]
    by_cases hs : containsSeq smPat r.eventSource = true ∧ r.eventName = gsvPat
    · rw [if_pos hs]
      cases hl : lookupParam r.requestParameters sidKey with
      | none => rfl
      | some v => cases v <;> rfl
    · rw [if_neg hs]

theorem ledgerUpd_same (m : Str → Option Str) (k t : Str) :
    ledgerUpd m k t k = updVal (m k) t := by
  unfold ledgerUpd
  rw [if_pos rfl]

/-- Helper: the worker fold carrying the processed counter equals the plain
state fold paired with the number of objects consumed. -/
theorem runObjects_split (i : Str) :
    ∀ (objs : List LogObject) (st : AggState) (n : Nat),
      objs.foldl (fun p o => (processObject i p.1 o, p.2 + 1)) (st, n) =
        (objs.foldl (processObject i) st, n + objs.length) := by
  intro objs
  induction objs with
  | nil => intro st n; simp
  | cons o os ih =>
    intro st n
    rw [List.foldl_cons, List.foldl_cons, ih]
    simp only [Prod.mk.injEq, List.length_cons]
    exact ⟨trivial, by omega⟩

/-- C1: the spec says secret detection is identity-agnostic, but in the code
the Secrets Manager check sits below the `continue` of the identity filter:
a successful GetSecretValue record with a string `secretId`, issued by a
principal other than the target identity, leaves the whole state — and in
particular SecretSet — untouched, where the spec requires `prod/db` to be
added. -/
theorem c1_nontarget_secret_record_leaves_secrets_empty :
    processRecord c1Target emptyState c1Record = emptyState ∧
    (processRecord c1Target emptyState c1Record).secrets "prod/db".data = false := by
  have h : processRecord c1Target emptyState c1Record = emptyState :=
    processRecord_skip _ _ _ (Or.inl (by decide))
  exact ⟨h, by rw [h]; rfl⟩

/-- C3: for two records that pass the identity and error filters, map to the
same OperationKey not yet present in the ledger, and whose timestamps
satisfy T1 < T2 lexically, the ledger ends at T2 in either processing
order. -/
theorem c3_last_write_wins (i : Str) (st : AggState) (r1 r2 : LogRecord) (k : Str)
    (h1i : normalizeArn r1.userIdentityArn = i) (h1e : r1.errorCode = none)
    (h2i : normalizeArn r2.userIdentityArn = i) (h2e : r2.errorCode = none)
    (hk1 : opKey r1 = k) (hk2 : opKey r2 = k)
    (hlt : goLess r1.eventTime r2.eventTime = true)
    (h0 : st.actions k = none) :
    (processRecord i (processRecord i st r1) r2).actions k = some r2.eventTime ∧
    (processRecord i (processRecord i st r2) r1).actions k = some r2.eventTime := by
  constructor
  · rw [processRecord_actions, if_pos ⟨h2i, h2e⟩, hk2, ledgerUpd_same,
        processRecord_actions, if_pos ⟨h1i, h1e⟩, hk1, ledgerUpd_same, h0]
    simp [updVal, hlt]
  · have hf : goLess r2.eventTime r1.eventTime = false := goLess_asymm _ _ hlt
    rw [processRecord_actions, if_pos ⟨h1i, h1e⟩, hk1, ledgerUpd_same,
        processRecord_actions, if_pos ⟨h2i, h2e⟩, hk2, ledgerUpd_same, h0]
    simp [updVal, hf]

/-- Witness for C3 at two concrete `ec2:DescribeInstances` records. -/
theorem c3_witness :
    (processRecord c3Target (processRecord c3Target emptyState c3Rec1) c3Rec2).actions
        "ec2:DescribeInstances".data = some "2024-01-15T10:30:00Z".data ∧
    (processRecord c3Target (processRecord c3Target emptyState c3Rec2) c3Rec1).actions
        "ec2:DescribeInstances".data = some "2024-01-15T10:30:00Z".data :=
  c3_last_write_wins c3Target emptyState c3Rec1 c3Rec2 "ec2:DescribeInstances".data
    (by decide) (by decide) (by decide) (by decide) (by decide) (by decide)
    (by decide) rfl

/-- C7: a record carrying a non-null error indicator never contributes an
entry or a timestamp update to ActionLedger, even when its identity and
operation match. -/
theorem c7_error_records_skip_ledger (i : Str) (st : AggState) (r : LogRecord)
    (h : r.errorCode ≠ none) : (processRecord i st r).actions = st.actions := by
  rw [processRecord_skip i st r (Or.inr h)]

/-- Witness for C7 at a failed RunInstances record of the target identity. -/
theorem c7_witness :
    (processRecord c3Target emptyState c7Rec).actions = emptyState.actions :=
  c7_error_records_skip_ledger c3Target emptyState c7Rec (by decide)

/-- C9: an object whose fetch, decompression or top-level parse failed
contributes no change at all to the shared state, is not retried, does not
abort the run, and is still counted as processed: removing it from the work
list yields the same final state with a count one lower. -/
theorem c9_object_failure_skipped_counted (i : Str) (o : LogObject)
    (h : o.payload = none) :
    (∀ st, processObject i st o = st) ∧
    ∀ pre post, runObjects i (pre ++ o :: post) =
      ((runObjects i (pre ++ post)).1, (runObjects i (pre ++ post)).2 + 1) := by
  have hid : ∀ st, processObject i st o = st := by
    intro st
    unfold processObject objRecords
    rw [h]
    rfl
  refine ⟨hid, ?_⟩
  intro pre post
  unfold runObjects
  rw [runObjects_split, runObjects_split, List.foldl_append, List.foldl_append,
      List.foldl_cons, hid]
  simp only [Prod.mk.injEq, List.length_append, List.length_cons]
  exact ⟨trivial, by omega⟩

/-- Witness for C9: one corrupt object next to one healthy object. -/
theorem c9_witness :
    processObject c3Target emptyState c9FailObj = emptyState ∧
    runObjects c3Target ([c9GoodObj] ++ c9FailObj :: []) =
      ((runObjects c3Target ([c9GoodObj] ++ [])).1,
        (runObjects c3Target ([c9GoodObj] ++ [])).2 + 1) :=
  ⟨(c9_object_failure_skipped_counted c3Target c9FailObj rfl).1 emptyState,
   (c9_object_failure_skipped_counted c3Target c9FailObj rfl).2 [c9GoodObj] []⟩

/-- C8: a listing error on one shard abandons only the remaining pages of
that shard: its already collected pages stay in the final key collection,
and every key of every error-free shard is present. -/
theorem c8_shard_failure_isolated (shards : List Shard) (sh : Shard) (hm : sh ∈ shards) :
    (sh.failAfter = none → ∀ k ∈ sh.pages.flatten, k ∈ listAllKeys shards) ∧
    ∀ n, sh.failAfter = some n → ∀ k ∈ (sh.pages.take n).flatten, k ∈ listAllKeys shards := by
  have base : ∀ k ∈ shardKeys sh, k ∈ listAllKeys shards := by
    intro k hk
    unfold listAllKeys
    exact List.mem_flatten.2 ⟨shardKeys sh, List.mem_map_of_mem shardKeys hm, hk⟩
  constructor
  · intro hnone k hk
    have e : shardKeys sh = sh.pages.flatten := by unfold shardKeys; rw [hnone]
    exact base k (e ▸ hk)
  · intro n hsome k hk
    have e : shardKeys sh = (sh.pages.take n).flatten := by unfold shardKeys; rw [hsome]
    exact base k (e ▸ hk)

/-- Witness for C8: the error-free shard is fully listed, and the page the
failing shard collected before its error is kept. -/
theorem c8_witness :
    "key3".data ∈ listAllKeys [c8Shard1, c8Shard2] ∧
    "key1".data ∈ listAllKeys [c8Shard1, c8Shard2] :=
  ⟨(c8_shard_failure_isolated [c8Shard1, c8Shard2] c8Shard2 (by decide)).1 rfl
      "key3".data (by decide),
   (c8_shard_failure_isolated [c8Shard1, c8Shard2] c8Shard1 (by decide)).2 1 rfl
      "key1".data (by decide)⟩

/-- C10: a record with an absent (empty) `userIdentity.arn` normalizes to
the empty string and therefore never passes the identity filter against a
non-empty target, contributing nothing. -/
theorem c10_empty_arn_rejected (i : Str) (st : AggState) (r : LogRecord)
    (hi : i ≠ []) (ha : r.userIdentityArn = []) :
    normalizeArn r.userIdentityArn = [] ∧ processRecord i st r = st := by
  have hn : normalizeArn r.userIdentityArn = [] := by rw [ha]; rfl
  refine ⟨hn, processRecord_skip i st r (Or.inl ?_)⟩
  rw [hn]
  exact fun hcontra => hi hcontra.symm

/-- Witness for C10 at a record without `userIdentity.arn`. -/
theorem c10_witness :
    normalizeArn c10Rec.userIdentityArn = [] ∧
    processRecord c3Target emptyState c10Rec = emptyState :=
  c10_empty_arn_rejected c3Target emptyState c10Rec (by decide) rfl

/-! ## Structure of `replaceOnce` around the first slash

`normalizeArn` truncates at the first `/` of its input; the two
`strings.Replace` calls that precede the truncation can only affect the
part before that slash in limited ways, characterised here. -/

theorem replaceOnce_cons (c : Char) (cs pat rep : Str) :
    replaceOnce (c :: cs) pat rep =
      if pat.isPrefixOf (c :: cs) then rep ++ (c :: cs).drop pat.length
      else c :: replaceOnce cs pat rep := rfl

theorem cons_isPrefixOf_nil (p : Char) (ps : Str) :
    (p :: ps).isPrefixOf ([] : Str) = false := rfl

theorem replaceOnce_of_isPrefixOf (s pat rep : Str)
    (h : pat.isPrefixOf s = true) :
    replaceOnce s pat rep = rep ++ s.drop pat.length := by
  cases s with
  | nil =>
    unfold replaceOnce
    rw [if_pos h]
    cases pat with
    | nil => simp
    | cons p ps => cases h
  | cons c cs =>
    rw [replaceOnce_cons, if_pos h]

theorem replaceOnce_of_no_occurrence (s pat rep : Str) (h : ¬ pat <:+: s) :
    replaceOnce s pat rep = s := by
  induction s with
  | nil =>
    unfold replaceOnce
    rw [if_neg]
    intro hb
    exact h (List.isPrefixOf_iff_prefix.1 hb).isInfix
  | cons c cs ih =>
    rw [replaceOnce_cons, if_neg, ih (fun hcs => h (List.infix_cons_iff.2 (Or.inr hcs)))]
    intro hb
    exact h (List.infix_cons_iff.2 (Or.inl (List.isPrefixOf_iff_prefix.1 hb)))

theorem replaceOnce_no_slash (s pat rep : Str) (hs : '/' ∉ s) (hr : '/' ∉ rep) :
    '/' ∉ replaceOnce s pat rep := by
  induction s with
  | nil =>
    unfold replaceOnce
    split
    · exact hr
    · exact List.not_mem_nil '/'
  | cons c cs ih =>
    rw [replaceOnce_cons]
    split
    · intro hm
      rcases List.mem_append.1 hm with hm1 | hm2
      · exact hr hm1
      · exact hs (List.drop_subset _ _ hm2)
    · intro hm
      rcases List.mem_cons.1 hm with hm1 | hm2
      · exact hs (hm1 ▸ List.mem_cons_self c cs)
      · exact ih (fun hx => hs (List.mem_cons_of_mem c hx)) hm2

theorem isPrefixOf_append_slash (pat : Str) (hp : '/' ∉ pat) :
    ∀ (A B : Str), pat.isPrefixOf (A ++ '/' :: B) = pat.isPrefixOf A := by
  induction pat with
  | nil => intro A B; cases A <;> rfl
  | cons p ps ih =>
    intro A B
    have hpn : p ≠ '/' := fun he => hp (he ▸ List.mem_cons_self p ps)
    cases A with
    | nil =>
      show ((p == '/') && ps.isPrefixOf B) = (p :: ps).isPrefixOf ([] : Str)
      rw [beq_eq_false_iff_ne.2 hpn, Bool.false_and, cons_isPrefixOf_nil]
    | cons a as =>
      show ((p == a) && ps.isPrefixOf (as ++ '/' :: B)) = ((p == a) && ps.isPrefixOf as)
      rw [ih (fun hm => hp (List.mem_cons_of_mem p hm)) as B]

theorem cons_isPrefixOf_slash (p : Char) (ps B : Str) (hp : p ≠ '/') :
    (p :: ps).isPrefixOf ('/' :: B) = false := by
  show ((p == '/') && ps.isPrefixOf B) = false
  rw [beq_eq_false_iff_ne.2 hp, Bool.false_and]

/-- A nonempty slash-free pattern is replaced either inside the part before
the first slash or inside the part after it, never across it. -/
theorem replaceOnce_append_slash (pat rep : Str) (hp : '/' ∉ pat) (hpn : pat ≠ [])
    (L rest : Str) :
    replaceOnce (L ++ '/' :: rest) pat rep =
      if pat <:+: L then replaceOnce L pat rep ++ '/' :: rest
      else L ++ '/' :: replaceOnce rest pat rep := by
  induction L with
  | nil =>
    obtain ⟨p, ps, rfl⟩ := List.exists_cons_of_ne_nil hpn
    have hpslash : p ≠ '/' := fun he => hp (he ▸ List.mem_cons_self p ps)
    rw [if_neg (by simp)]
    rw [List.nil_append, List.nil_append, replaceOnce_cons,
        if_neg (by rw [cons_isPrefixOf_slash p ps rest hpslash]; exact Bool.false_ne_true)]
  | cons c M ih =>
    rw [List.cons_append, replaceOnce_cons,
        show (c :: (M ++ '/' :: rest)) = (c :: M) ++ '/' :: rest from rfl,
        isPrefixOf_append_slash pat hp (c :: M) rest]
    by_cases hpre : pat.isPrefixOf (c :: M) = true
    · have hinf : pat <:+: c :: M := (List.isPrefixOf_iff_prefix.1 hpre).isInfix
      have hle : pat.length ≤ (c :: M).length :=
        (List.isPrefixOf_iff_prefix.1 hpre).length_le
      rw [if_pos hpre, if_pos hinf, List.drop_append_of_le_length hle,
          replaceOnce_of_isPrefixOf (c :: M) pat rep hpre, List.append_assoc]
    · rw [if_neg hpre, ih]
      by_cases hM : pat <:+: M
      · rw [if_pos hM, if_pos (List.infix_cons_iff.2 (Or.inr hM)), replaceOnce_cons,
            if_neg hpre, List.cons_append]
      · have hcM : ¬ pat <:+: c :: M := by
          intro hx
          rcases List.infix_cons_iff.1 hx with hx1 | hx2
          · exact hpre (List.isPrefixOf_iff_prefix.2 hx1)
          · exact hM hx2
        rw [if_neg hM, if_neg hcM, List.cons_append]

/-- A pattern of the form `q ++ "/"` with slash-free nonempty `q` matches a
string `A ++ "/" ++ B` with slash-free `A` exactly when `q = A`. -/
theorem prefixOf_slash_marker (q : Str) (hq : '/' ∉ q) :
    ∀ (A B : Str), '/' ∉ A →
      ((q ++ ['/']).isPrefixOf (A ++ '/' :: B) = true ↔ q = A) := by
  induction q with
  | nil =>
    intro A B hA
    cases A with
    | nil => simp [List.isPrefixOf]
    | cons a as =>
      have ha : '/' ≠ a := fun he => hA (he ▸ List.mem_cons_self a as)
      constructor
      · intro hb
        rw [List.nil_append, List.cons_append] at hb
        have : (('/' == a) && ([] : Str).isPrefixOf (as ++ '/' :: B)) = true := hb
        rw [beq_eq_false_iff_ne.2 ha, Bool.false_and] at this
        cases this
      · intro he
        cases he
  | cons x xs ih =>
    intro A B hA
    have hx : x ≠ '/' := fun he => hq (he ▸ List.mem_cons_self x xs)
    cases A with
    | nil =>
      rw [List.nil_append, List.cons_append, cons_isPrefixOf_slash x (xs ++ ['/']) B hx]
      simp
    | cons a as =>
      have hbeq : ((x :: (xs ++ ['/'])).isPrefixOf (a :: (as ++ '/' :: B)))
          = ((x == a) && (xs ++ ['/']).isPrefixOf (as ++ '/' :: B)) := rfl
      rw [List.cons_append, List.cons_append, hbeq]
      by_cases hxa : x = a
      · subst hxa
        rw [beq_self_eq_true, Bool.true_and,
            ih (fun hm => hq (List.mem_cons_of_mem x hm)) as B
              (fun hm => hA (List.mem_cons_of_mem _ hm))]
        constructor
        · intro he; rw [he]
        · intro he; exact (List.cons_eq_cons.1 he).2
      · rw [beq_eq_false_iff_ne.2 hxa, Bool.false_and]
        constructor
        · intro hb; cases hb
        · intro he; exact absurd (List.cons_eq_cons.1 he).1 hxa

/-- A pattern ending in a slash, with slash-free nonempty head `q`, can only
fire at the first slash of `L ++ "/" ++ rest` when `q` is a suffix of the
slash-free `L`; otherwise it fires (if at all) after the first slash. -/
theorem replaceOnce_slashPat (q rep : Str) (hq : '/' ∉ q) (hqn : q ≠ []) :
    ∀ (L rest : Str), '/' ∉ L →
      replaceOnce (L ++ '/' :: rest) (q ++ ['/']) rep =
        if q <:+ L then L.take (L.length - q.length) ++ rep ++ rest
        else L ++ '/' :: replaceOnce rest (q ++ ['/']) rep := by
  intro L
  induction L with
  | nil =>
    intro rest hL
    obtain ⟨x, xs, rfl⟩ := List.exists_cons_of_ne_nil hqn
    have hx : x ≠ '/' := fun he => hq (he ▸ List.mem_cons_self x xs)
    rw [if_neg (by simp), List.nil_append, replaceOnce_cons,
        if_neg (by rw [List.cons_append, cons_isPrefixOf_slash x (xs ++ ['/']) rest hx]
                   exact Bool.false_ne_true)]
    rfl
  | cons c M ih =>
    intro rest hL
    have hM : '/' ∉ M := fun hm => hL (List.mem_cons_of_mem c hm)
    rw [List.cons_append, replaceOnce_cons]
    by_cases he : q = c :: M
    · have hcond : (q ++ ['/']).isPrefixOf (c :: (M ++ '/' :: rest)) = true := by
        rw [show (c :: (M ++ '/' :: rest)) = (c :: M) ++ '/' :: rest from rfl]
        exact (prefixOf_slash_marker q hq (c :: M) rest hL).2 he
      rw [if_pos hcond, if_pos (he ▸ List.suffix_refl (c :: M))]
      have hlen : (q ++ ['/']).length = (c :: M).length + 1 := by
        rw [he]; simp
      have hdrop : (c :: (M ++ '/' :: rest)).drop ((q ++ ['/']).length) = rest := by
        rw [hlen,
            show (c :: (M ++ '/' :: rest)) = ((c :: M) ++ ['/']) ++ rest by
              simp,
            List.drop_left' (by simp)]
      rw [hdrop, he, Nat.sub_self, List.take_zero, List.nil_append]
    · have hcond : ¬ ((q ++ ['/']).isPrefixOf (c :: (M ++ '/' :: rest)) = true) := by
        rw [show (c :: (M ++ '/' :: rest)) = (c :: M) ++ '/' :: rest from rfl]
        intro hb
        exact he ((prefixOf_slash_marker q hq (c :: M) rest hL).1 hb)
      rw [if_neg hcond, ih rest hM]
      by_cases hsuf : q <:+ M
      · rw [if_pos hsuf, if_pos (List.suffix_cons_iff.2 (Or.inr hsuf))]
        have hle : q.length ≤ M.length := hsuf.length_le
        rw [show (c :: M).length - q.length = (M.length - q.length) + 1 by
              simp [Nat.succ_sub hle],
            List.take_succ_cons, List.cons_append, List.cons_append]
      · have hns : ¬ q <:+ c :: M := by
          intro hx
          rcases List.suffix_cons_iff.1 hx with h1 | h2
          · exact he h1
          · exact hsuf h2
        rw [if_neg hsuf, if_neg hns, List.cons_append]

/-- The first slash of `A ++ "/" ++ B` with slash-free `A` sits at index
`A.length`. -/
theorem findIdxSlash_append (A B : Str) (hA : '/' ∉ A) :
    (A ++ '/' :: B).findIdx? (fun c => c = '/') = some A.length := by
  induction A with
  | nil => simp
  | cons a A2 ih =>
    have ha : a ≠ '/' := fun he => hA (he ▸ List.mem_cons_self a A2)
    rw [List.cons_append, List.findIdx?_cons, if_neg (by simp [ha]),
        List.findIdx?_succ, ih (fun hm => hA (List.mem_cons_of_mem a hm))]
    rfl

theorem truncFirstSlash_append (A B : Str) (hA : '/' ∉ A) :
    truncFirstSlash (A ++ '/' :: B) = A := by
  unfold truncFirstSlash
  rw [findIdxSlash_append A B hA]
  exact List.take_left A ('/' :: B)

theorem truncFirstSlash_of_no_slash (s : Str) (h : '/' ∉ s) :
    truncFirstSlash s = s := by
  unfold truncFirstSlash
  rw [List.findIdx?_eq_none_iff.2 (fun x hx => by
    simp only [decide_eq_false_iff_not]
    exact fun he => h (he ▸ hx))]

theorem truncFirstSlash_eq_takeWhile (s : Str) :
    truncFirstSlash s = s.takeWhile (fun c => ¬ c = '/') := by
  induction s with
  | nil => rfl
  | cons c cs ih =>
    unfold truncFirstSlash at ih ⊢
    rw [List.findIdx?_cons]
    by_cases hc : c = '/'
    · rw [if_pos (by simp [hc]), List.takeWhile_cons, if_neg (by simp [hc])]
      rfl
    · rw [if_neg (by simp [hc]), List.findIdx?_succ, List.takeWhile_cons,
          if_pos (by simp [hc])]
      cases hf : cs.findIdx? (fun c => c = '/') with
      | none =>
        rw [hf] at ih
        simp only [hf, Option.map_none']
        exact congrArg (List.cons c) ih
      | some i =>
        rw [hf] at ih
        simp only [hf, Option.map_some']
        rw [List.take_succ_cons]
        exact congrArg (List.cons c) ih

theorem no_slash_truncFirstSlash (s : Str) : '/' ∉ truncFirstSlash s := by
  rw [truncFirstSlash_eq_takeWhile]
  intro hm
  have := List.mem_takeWhile_imp hm
  simp at this

/-- How `normalizeArn` acts on an identifier split at its first slash: the
whole result is computed from the slash-free part `L` before that slash. -/
theorem normalizeArn_split (L rest : Str) (hL : '/' ∉ L) :
    normalizeArn (L ++ '/' :: rest) = normHead L := by
  unfold normalizeArn normHead
  rw [replaceOnce_append_slash stsPat iamPat (by decide) (by decide) L rest]
  have hL1 : '/' ∉ replaceOnce L stsPat iamPat :=
    replaceOnce_no_slash L stsPat iamPat hL (by decide)
  have harseg : arSeg = arHead ++ ['/'] := by decide
  have hrseg : roleSeg = roleHead ++ ['/'] := by decide
  by_cases hsts : stsPat <:+: L
  · rw [if_pos hsts, harseg, hrseg,
        replaceOnce_slashPat arHead (roleHead ++ ['/']) (by decide) (by decide)
          (replaceOnce L stsPat iamPat) rest hL1]
    by_cases har : arHead <:+ replaceOnce L stsPat iamPat
    · rw [if_pos har, if_pos har,
          show ((replaceOnce L stsPat iamPat).take
                  ((replaceOnce L stsPat iamPat).length - arHead.length) ++
                (roleHead ++ ['/']) ++ rest)
              = ((replaceOnce L stsPat iamPat).take
                  ((replaceOnce L stsPat iamPat).length - arHead.length) ++
                roleHead) ++ '/' :: rest by simp]
      exact truncFirstSlash_append _ rest (by
        intro hm
        rcases List.mem_append.1 hm with h1 | h2
        · exact hL1 (List.take_subset _ _ h1)
        · revert h2; decide)
    · rw [if_neg har, if_neg har]
      exact truncFirstSlash_append _ _ hL1
  · rw [if_neg hsts, replaceOnce_of_no_occurrence L stsPat iamPat hsts, harseg, hrseg,
        replaceOnce_slashPat arHead (roleHead ++ ['/']) (by decide) (by decide)
          L (replaceOnce rest stsPat iamPat) hL]
    by_cases har : arHead <:+ L
    · rw [if_pos har, if_pos har,
          show (L.take (L.length - arHead.length) ++ (roleHead ++ ['/']) ++
                  replaceOnce rest stsPat iamPat)
              = (L.take (L.length - arHead.length) ++ roleHead) ++
                  '/' :: replaceOnce rest stsPat iamPat by simp]
      exact truncFirstSlash_append _ _ (by
        intro hm
        rcases List.mem_append.1 hm with h1 | h2
        · exact hL (List.take_subset _ _ h1)
        · revert h2; decide)
    · rw [if_neg har, if_neg har]
      exact truncFirstSlash_append _ _ hL

/-- A nonempty suffix fixes the last element of the enclosing list. -/
theorem getLast?_of_suffix (q s : Str) (h : q <:+ s) (hq : q ≠ []) :
    s.getLast? = q.getLast? := by
  obtain ⟨t, rfl⟩ := h
  rw [List.getLast?_append]
  obtain ⟨x, xs, rfl⟩ := List.exists_cons_of_ne_nil hq
  cases hg : (x :: xs).getLast? with
  | none => exact absurd (List.getLast?_eq_none_iff.1 hg) (List.cons_ne_nil x xs)
  | some a => rw [Option.or_some]

/-- `:assumed-role` is never a suffix of something ending in `:user`. -/
theorem arHead_not_suffix_user (A : Str) : ¬ arHead <:+ A ++ ":user".data := by
  intro h
  have h2 := getLast?_of_suffix arHead (A ++ ":user".data) h (by decide)
  rw [List.getLast?_append] at h2
  rw [show (":user".data.getLast? = some 'r') from rfl, Option.or_some] at h2
  rw [show arHead.getLast? = some 'e' from rfl] at h2
  cases h2

/-- C6: raw identifiers that differ only in the part after the first path
separator normalize identically. -/
theorem c6_session_suffix_invariant (L s1 s2 : Str) (hL : '/' ∉ L) :
    normalizeArn (L ++ '/' :: s1) = normalizeArn (L ++ '/' :: s2) := by
  rw [normalizeArn_split L s1 hL, normalizeArn_split L s2 hL]

/-- Witness for C6: two sessions of one assumed role. -/
theorem c6_witness :
    normalizeArn ("arn:aws:sts::111122223333:assumed-role".data ++
        '/' :: "Admin/Session1".data) =
      normalizeArn ("arn:aws:sts::111122223333:assumed-role".data ++
        '/' :: "Admin/Session2".data) :=
  c6_session_suffix_invariant "arn:aws:sts::111122223333:assumed-role".data
    "Admin/Session1".data "Admin/Session2".data (by decide)

/-- C2 fails on the code: `normalizeArn` truncates at the first slash of the
whole identifier, which for a canonical-shape input is the separator
between the principal type and the name, so the session-style input
normalizes to a string that no longer contains the principal name `Admin`
(the claim expects `arn:aws:iam::111122223333:role/Admin`). -/
theorem c2_counterexample :
    normalizeArn "arn:aws:sts::111122223333:assumed-role/Admin/Session".data
        = "arn:aws:iam::111122223333:role".data ∧
    normalizeArn "arn:aws:sts::111122223333:assumed-role/Admin/Session".data
        ≠ "arn:aws:iam::111122223333:role/Admin".data ∧
    containsSeq "Admin".data
        (normalizeArn "arn:aws:sts::111122223333:assumed-role/Admin/Session".data)
        = false := by
  refine ⟨by decide, by decide, by decide⟩

/-- C2 amended: for canonical-shape inputs, `normalizeArn` truncates at the
first path separator of the whole identifier — the one between the
principal type and the name — so the canonical result keeps only account
and principal type, stripping the name together with the session. -/
theorem c2_amended_first_slash_truncation (acct name sess : Str)
    (ha : '/' ∉ acct)
    (hsts : ¬ stsPat <:+: (iamPat ++ acct ++ ":user".data)) :
    normalizeArn ((iamPat ++ acct ++ ":user".data) ++ '/' :: (name ++ '/' :: sess))
        = iamPat ++ acct ++ ":user".data ∧
    normalizeArn ((stsPat ++ acct ++ arHead) ++ '/' :: (name ++ '/' :: sess))
        = iamPat ++ acct ++ roleHead := by
  constructor
  · have hL : '/' ∉ iamPat ++ acct ++ ":user".data := by
      intro hm
      rcases List.mem_append.1 hm with h1 | h2
      · rcases List.mem_append.1 h1 with h3 | h4
        · revert h3; decide
        · exact ha h4
      · revert h2; decide
    rw [normalizeArn_split _ _ hL]
    unfold normHead
    rw [replaceOnce_of_no_occurrence _ stsPat iamPat hsts]
    rw [if_neg (by
      rw [List.append_assoc]
      exact arHead_not_suffix_user (iamPat ++ acct))]
  · have hL : '/' ∉ stsPat ++ acct ++ arHead := by
      intro hm
      rcases List.mem_append.1 hm with h1 | h2
      · rcases List.mem_append.1 h1 with h3 | h4
        · revert h3; decide
        · exact ha h4
      · revert h2; decide
    rw [normalizeArn_split _ _ hL]
    unfold normHead
    have hpre : stsPat.isPrefixOf (stsPat ++ acct ++ arHead) = true := by
      rw [List.append_assoc]
      exact List.isPrefixOf_iff_prefix.2 (List.prefix_append stsPat (acct ++ arHead))
    rw [replaceOnce_of_isPrefixOf _ stsPat iamPat hpre,
        List.append_assoc, List.drop_left' (by decide)]
    rw [if_pos (by
      rw [← List.append_assoc]
      exact List.suffix_append (iamPat ++ acct) arHead)]
    rw [show (iamPat ++ (acct ++ arHead)).length - arHead.length
          = (iamPat ++ acct).length by simp; omega,
        ← List.append_assoc, List.take_left (iamPat ++ acct) arHead,
        List.append_assoc]

/-- Witness for C2 amended, at account 111122223333, name Admin. -/
theorem c2_witness :
    normalizeArn ((iamPat ++ "111122223333".data ++ ":user".data) ++
          '/' :: ("Admin".data ++ '/' :: "Sess".data))
        = iamPat ++ "111122223333".data ++ ":user".data ∧
    normalizeArn ((stsPat ++ "111122223333".data ++ arHead) ++
          '/' :: ("Admin".data ++ '/' :: "Sess".data))
        = iamPat ++ "111122223333".data ++ roleHead :=
  c2_amended_first_slash_truncation "111122223333".data "Admin".data "Sess".data
    (by decide) (by decide)

/-- C5 fails on the code as universally stated: on a string containing the
sts namespace marker twice, the first normalization only rewrites the first
occurrence, and a second pass rewrites the survivor, so the function is not
idempotent there. -/
theorem c5_counterexample :
    normalizeArn (normalizeArn "arn:aws:sts::arn:aws:sts::".data) ≠
      normalizeArn "arn:aws:sts::arn:aws:sts::".data := by decide

/-- C5 amended: `normalizeArn` is idempotent on every raw identifier whose
normalized form no longer contains `arn:aws:sts::` — in particular on every
well-formed identifier, where that marker occurs at most once and only at
the front, and on every already canonical PrincipalIdentifier. -/
theorem c5_amended_idempotent (x : Str) (h : ¬ stsPat <:+: normalizeArn x) :
    normalizeArn (normalizeArn x) = normalizeArn x := by
  have hs : '/' ∉ normalizeArn x := no_slash_truncFirstSlash _
  generalize hgen : normalizeArn x = r at h hs ⊢
  rw [show normalizeArn r
        = truncFirstSlash (replaceOnce (replaceOnce r stsPat iamPat) arSeg roleSeg)
      from rfl]
  rw [replaceOnce_of_no_occurrence r stsPat iamPat h,
      replaceOnce_of_no_occurrence r arSeg roleSeg
        (fun hinf => hs (hinf.subset (show '/' ∈ arSeg by decide)))]
  exact truncFirstSlash_of_no_slash r hs

/-- Witness for C5 amended at a well-formed assumed-role session ARN. -/
theorem c5_witness :
    normalizeArn (normalizeArn "arn:aws:sts::111122223333:assumed-role/Admin/Session".data)
      = normalizeArn "arn:aws:sts::111122223333:assumed-role/Admin/Session".data :=
  c5_amended_idempotent "arn:aws:sts::111122223333:assumed-role/Admin/Session".data
    (by decide)

/-! ## Order-independence of the reduction -/

theorem goLess_trans : ∀ a b c : Str,
    goLess a b = true → goLess b c = true → goLess a c = true
  | _, _, [], _, h2 => by rw [goLess_nil_right] at h2; cases h2
  | _, [], _ :: _, h1, _ => by rw [goLess_nil_right] at h1; cases h1
  | [], _ :: _, _ :: _, _, _ => rfl
  | x :: xs, y :: ys, z :: zs, h1, h2 => by
    simp only [goLess] at h1 h2 ⊢
    by_cases hxy : x < y
    · by_cases hyz : y < z
      · rw [if_pos (lt_trans hxy hyz)]
      · by_cases hzy : z < y
        · simp [hzy] at h2
          exact absurd h2 hyz
        · have : y = z := le_antisymm (not_lt.mp hzy) (not_lt.mp hyz)
          rw [if_pos (this ▸ hxy)]
    · by_cases hyx : y < x
      · simp [hxy, hyx] at h1
      · have hxey : x = y := le_antisymm (not_lt.mp hyx) (not_lt.mp hxy)
        rw [if_neg hxy, if_neg hyx] at h1
        by_cases hyz : y < z
        · rw [if_pos (hxey ▸ hyz)]
        · by_cases hzy : z < y
          · simp [hyz, hzy] at h2
          · rw [if_neg hyz, if_neg hzy] at h2
            have hxz : ¬ x < z := hxey ▸ hyz
            have hzx : ¬ z < x := hxey ▸ hzy
            rw [if_neg hxz, if_neg hzx]
            exact goLess_trans xs ys zs h1 h2

theorem updVal_comm (v : Option Str) (t1 t2 : Str) :
    updVal (updVal v t1) t2 = updVal (updVal v t2) t1 := by
  cases v with
  | none =>
    simp only [updVal]
    by_cases h12 : goLess t1 t2 = true
    · rw [if_pos h12, if_neg (by rw [goLess_asymm t1 t2 h12]; exact Bool.false_ne_true)]
    · by_cases h21 : goLess t2 t1 = true
      · rw [if_neg h12, if_pos h21]
      · rw [if_neg h12, if_neg h21,
            goLess_conn t1 t2 (Bool.not_eq_true _ ▸ h12) (Bool.not_eq_true _ ▸ h21)]
  | some p =>
    simp only [updVal]
    by_cases hp1 : goLess p t1 = true <;> by_cases hp2 : goLess p t2 = true
    · simp only [if_pos hp1, if_pos hp2, updVal]
      by_cases h12 : goLess t1 t2 = true
      · rw [if_pos h12, if_neg (by rw [goLess_asymm t1 t2 h12]; exact Bool.false_ne_true)]
      · by_cases h21 : goLess t2 t1 = true
        · rw [if_neg h12, if_pos h21]
        · rw [if_neg h12, if_neg h21,
              goLess_conn t1 t2 (Bool.not_eq_true _ ▸ h12) (Bool.not_eq_true _ ▸ h21)]
    · simp only [if_pos hp1, if_neg hp2, updVal]
      have h21 : goLess t2 t1 = true := by
        by_cases h12 : goLess t1 t2 = true
        · exact absurd (goLess_trans p t1 t2 hp1 h12) hp2
        · by_cases h21 : goLess t2 t1 = true
          · exact h21
          · rw [goLess_conn t1 t2 (Bool.not_eq_true _ ▸ h12) (Bool.not_eq_true _ ▸ h21)]
              at hp1
            exact absurd hp1 hp2
      rw [if_neg (by rw [goLess_asymm t2 t1 h21]; exact Bool.false_ne_true)]
    · simp only [if_neg hp1, if_pos hp2, updVal]
      have h12 : goLess t1 t2 = true := by
        by_cases h21 : goLess t2 t1 = true
        · exact absurd (goLess_trans p t2 t1 hp2 h21) hp1
        · by_cases h12 : goLess t1 t2 = true
          · exact h12
          · rw [← goLess_conn t1 t2 (Bool.not_eq_true _ ▸ h12) (Bool.not_eq_true _ ▸ h21)]
              at hp2
            exact absurd hp2 hp1
      rw [if_neg (by rw [goLess_asymm t1 t2 h12]; exact Bool.false_ne_true)]
    · simp only [if_neg hp1, if_neg hp2, updVal, if_neg hp1]

theorem insertSecret_comm (s : Str → Bool) (a b : Str) :
    insertSecret (insertSecret s a) b = insertSecret (insertSecret s b) a := by
  funext q
  unfold insertSecret
  by_cases hqa : q = a <;> by_cases hqb : q = b <;> simp [hqa, hqb]

theorem secUpd_eq (r : LogRecord) (s : Str → Bool) :
    secUpd r s = match secretOf r with
      | some sid => insertSecret s sid
      | none => s := by
  unfold secUpd secretOf
  by_cases hc : containsSeq smPat r.eventSource = true ∧ r.eventName = gsvPat
  · rw [if_pos hc, if_pos hc]
    cases hl : lookupParam r.requestParameters sidKey with
    | none => rfl
    | some v => cases v <;> rfl
  · rw [if_neg hc, if_neg hc]

theorem secUpd_comm (r1 r2 : LogRecord) (s : Str → Bool) :
    secUpd r2 (secUpd r1 s) = secUpd r1 (secUpd r2 s) := by
  rw [secUpd_eq, secUpd_eq, secUpd_eq, secUpd_eq]
  cases secretOf r1 with
  | none => rfl
  | some s1 =>
    cases secretOf r2 with
    | none => rfl
    | some s2 => exact insertSecret_comm s s1 s2

theorem ledgerUpd_comm (m : Str → Option Str) (k1 t1 k2 t2 : Str) :
    ledgerUpd (ledgerUpd m k1 t1) k2 t2 = ledgerUpd (ledgerUpd m k2 t2) k1 t1 := by
  funext q
  unfold ledgerUpd
  by_cases hq2 : q = k2 <;> by_cases hq1 : q = k1
  · subst hq2
    have hk : q = k1 := hq1
    subst hk
    simp only [if_pos rfl]
    exact updVal_comm (m q) t1 t2
  · subst hq2
    simp [hq1]
  · subst hq1
    simp [hq2]
  · simp [hq1, hq2]

/-- A record that passes the identity and error filter updates the two
components of the state independently. -/
theorem processRecord_pass (i : Str) (st : AggState) (r : LogRecord)
    (hc : normalizeArn r.userIdentityArn = i ∧ r.errorCode = none) :
    processRecord i st r =
      ⟨ledgerUpd st.actions (opKey r) r.eventTime, secUpd r st.secrets⟩ := by
  unfold processRecord secUpd
  rw [if_neg (by tauto)]
  by_cases hs : containsSeq smPat r.eventSource = true ∧ r.eventName = gsvPat
  · rw [if_pos hs, if_pos hs]
    cases hl : lookupParam r.requestParameters sidKey with
    | none => rfl
    | some v => cases v <;> rfl
  · rw [if_neg hs, if_neg hs]

/-- The per-record state update is right-commutative: two records can be
folded in either order. -/
theorem processRecord_comm (i : Str) (st : AggState) (r1 r2 : LogRecord) :
    processRecord i (processRecord i st r1) r2
      = processRecord i (processRecord i st r2) r1 := by
  by_cases h1 : normalizeArn r1.userIdentityArn ≠ i ∨ r1.errorCode ≠ none
  · rw [processRecord_skip i st r1 h1, processRecord_skip i _ r1 h1]
  · by_cases h2 : normalizeArn r2.userIdentityArn ≠ i ∨ r2.errorCode ≠ none
    · rw [processRecord_skip i st r2 h2, processRecord_skip i _ r2 h2]
    · have hc1 : normalizeArn r1.userIdentityArn = i ∧ r1.errorCode = none := by tauto
      have hc2 : normalizeArn r2.userIdentityArn = i ∧ r2.errorCode = none := by tauto
      rw [processRecord_pass i st r1 hc1, processRecord_pass i _ r2 hc2,
          processRecord_pass i st r2 hc2, processRecord_pass i _ r1 hc1]
      dsimp only
      rw [ledgerUpd_comm st.actions (opKey r1) r1.eventTime (opKey r2) r2.eventTime,
          secUpd_comm r1 r2 st.secrets]

/-- C4: the fold of records into the shared state is invariant under every
permutation of the record stream, and hence the final ActionLedger and
SecretSet do not depend on the worker-assignment order of the log files. -/
theorem c4_order_independent (i : Str) :
    (∀ rs1 rs2 : List LogRecord, rs1.Perm rs2 →
        ∀ st, foldRecords i st rs1 = foldRecords i st rs2) ∧
    (∀ objs1 objs2 : List LogObject, objs1.Perm objs2 →
        (runObjects i objs1).1 = (runObjects i objs2).1) := by
  have hrec : ∀ rs1 rs2 : List LogRecord, rs1.Perm rs2 →
      ∀ st, foldRecords i st rs1 = foldRecords i st rs2 := by
    intro rs1 rs2 hp st
    exact hp.foldl_eq' (fun x _ y _ z => processRecord_comm i z x y) st
  refine ⟨hrec, ?_⟩
  have hfst : ∀ objs : List LogObject,
      (runObjects i objs).1 = objs.foldl (processObject i) emptyState := by
    intro objs
    unfold runObjects
    rw [runObjects_split]
  have hfold : ∀ (objs : List LogObject) (st : AggState),
      objs.foldl (processObject i) st
        = foldRecords i st (objs.map objRecords).flatten := by
    intro objs
    induction objs with
    | nil => intro st; rfl
    | cons o os ih =>
      intro st
      rw [List.foldl_cons, List.map_cons, List.flatten_cons, ih]
      show foldRecords i (processObject i st o) (os.map objRecords).flatten
          = foldRecords i st (objRecords o ++ (os.map objRecords).flatten)
      unfold foldRecords processObject foldRecords
      rw [List.foldl_append]
  intro objs1 objs2 hp
  rw [hfst, hfst, hfold, hfold]
  exact hrec _ _ ((hp.map objRecords).flatten) emptyState

/-- Witness for C4: two one-record files in both orders. -/
theorem c4_witness :
    foldRecords c3Target emptyState [c3Rec1, c3Rec2]
        = foldRecords c3Target emptyState [c3Rec2, c3Rec1] ∧
    (runObjects c3Target [c4Obj1, c4Obj2]).1 = (runObjects c3Target [c4Obj2, c4Obj1]).1 :=
  ⟨(c4_order_independent c3Target).1 [c3Rec1, c3Rec2] [c3Rec2, c3Rec1]
      (List.Perm.swap c3Rec2 c3Rec1 []) emptyState,
   (c4_order_independent c3Target).2 [c4Obj1, c4Obj2] [c4Obj2, c4Obj1]
      (List.Perm.swap c4Obj2 c4Obj1 [])⟩
